import Mathlib

/-!
Verification development for the `nip_core` library: a content-addressing
bridge between a git object graph and IPFS.  The Rust sources
(`src/constants.rs`, `src/util.rs`, `src/remote.rs`, `src/object.rs`,
`src/index.rs`, `src/migrations/mod.rs`, `src/migrations/object_v1.rs`)
are shallowly embedded below.  Network collaborators (the IPFS client)
and the local git object database are modelled at their interface
boundary: maps and oracle functions passed explicitly, mirroring how the
Rust code threads `&mut IpfsClient` and `&Repository` through every
operation.  `BTreeMap`/`BTreeSet`/`HashSet` values are modelled as
association lists / lists with set semantics expressed through
membership.  Rust strings are Lean `String`s except in the remote-address
module, where `List Char` is used so that `split('/')` can be reasoned
about directly (the addresses involved are ASCII, where Rust's byte
length and the character count coincide).
-/

/-- Association-list lookup, modelling `BTreeMap::get` / `contains_key`. -/
def lookupKey {α : Type} (k : String) : List (String × α) → Option α
  | [] => none
  | (a, b) :: rest => if a = k then some b else lookupKey k rest

/-- Association-list key removal, modelling `BTreeMap::remove`. -/
def removeKey {α : Type} (k : String) : List (String × α) → List (String × α)
  | [] => []
  | (a, b) :: rest => if a = k then removeKey k rest else (a, b) :: removeKey k rest

/-- Association-list insertion, modelling `BTreeMap::insert` (replaces any
previous binding of the key). -/
def insertKey {α : Type} (k : String) (v : α) (m : List (String × α)) :
    List (String × α) :=
  (k, v) :: removeKey k m

theorem lookupKey_insertKey_self {α : Type} (k : String) (v : α) (m : List (String × α)) :
    lookupKey k (insertKey k v m) = some v := by
  simp [insertKey, lookupKey]

theorem lookupKey_removeKey_ne {α : Type} {k k' : String} (m : List (String × α))
    (h : k ≠ k') : lookupKey k' (removeKey k m) = lookupKey k' m := by
  induction m with
  | nil => rfl
  | cons p rest ih =>
    obtain ⟨a, b⟩ := p
    by_cases hak : a = k
    · subst hak
      have h1 : removeKey a ((a, b) :: rest) = removeKey a rest := by simp [removeKey]
      rw [h1, ih]
      simp [lookupKey, h]
    · simp only [removeKey, if_neg hak, lookupKey, ih]

theorem lookupKey_insertKey_ne {α : Type} {k k' : String} (v : α) (m : List (String × α))
    (h : k ≠ k') : lookupKey k' (insertKey k v m) = lookupKey k' m := by
  simp only [insertKey, lookupKey, if_neg h]
  exact lookupKey_removeKey_ne m h

theorem removeKey_of_lookup_none {α : Type} {k : String} {m : List (String × α)}
    (h : lookupKey k m = none) : removeKey k m = m := by
  induction m with
  | nil => rfl
  | cons p rest ih =>
    obtain ⟨a, b⟩ := p
    by_cases hak : a = k
    · simp [lookupKey, hak] at h
    · simp only [lookupKey, if_neg hak] at h
      simp [removeKey, hak, ih h]

-- ## Constants (`src/constants.rs`)

/-- Fixed IPFS hash length, `IPFS_HASH_LEN` in `constants.rs`. -/
def IPFS_HASH_LEN : Nat := 46

/-- The 6 magic bytes `b"NIPNIP"` (`NIP_MAGIC` in `constants.rs`). -/
def NIP_MAGIC : List Nat := [78, 73, 80, 78, 73, 80]

/-- Current protocol version (`NIP_PROTOCOL_VERSION` in `constants.rs`). -/
def NIP_PROTOCOL_VERSION : Nat := 2

/-- Total header length in bytes (`NIP_HEADER_LEN` in `constants.rs`). -/
def NIP_HEADER_LEN : Nat := 8

/-- Sentinel string stored in the objects table for submodule tips
(`SUBMODULE_TIP_MARKER` in `constants.rs`). -/
def SUBMODULE_TIP_MARKER : String := "submodule-tip"

-- ## Header codec (`src/util.rs`)

/-- Errors of `parse_nip_header`; the Rust code uses `bail!` with
distinguishing messages for the two failure cases, and a `read_u16`
failure is impossible once the length check passed. -/
inductive HeaderErr where
  | tooShort
  | badMagic
  | shortRead
deriving DecidableEq, Repr

/-- Embedding of `parse_nip_header` (`util.rs` lines 26-44): rejects
slices shorter than `NIP_HEADER_LEN`, then compares the first
`NIP_MAGIC.len()` bytes against the magic, then reads bytes 6..8 as a
big-endian u16.  Bytes are `Nat`s below 256. -/
def parse_nip_header (header : List Nat) : Except HeaderErr Nat :=
  if header.length < NIP_HEADER_LEN then
    .error .tooShort
  else if header.take NIP_MAGIC.length ≠ NIP_MAGIC then
    .error .badMagic
  else
    match header.drop NIP_MAGIC.length with
    | b1 :: b2 :: _ => .ok (b1 * 256 + b2)
    | _ => .error .shortRead

/-- Embedding of `gen_nip_header` (`util.rs` lines 48-53): magic followed
by the requested version (defaulting to `NIP_PROTOCOL_VERSION`) as a
big-endian u16; the `% 256` mirrors the 2-byte width of the field. -/
def gen_nip_header (version : Option Nat) : List Nat :=
  let v := version.getD NIP_PROTOCOL_VERSION
  NIP_MAGIC ++ [v / 256 % 256, v % 256]

-- ## Remote addresses (`src/remote.rs`)

/-- The four remote-address variants (`NIPRemote` in `remote.rs`).
Hashes are `List Char` (ASCII in practice, so Rust's byte length equals
the character count). -/
inductive NIPRemote where
  | existingIPFS (hash : List Char)
  | existingIPNS (hash : List Char)
  | newIPFS
  | newIPNS
deriving DecidableEq, Repr

/-- Parse errors (`NIPRemoteParseError` in `remote.rs`). -/
inductive NIPRemoteParseError where
  | invalidHashLength (got : Nat) (expected : Nat)
  | invalidLinkFormat (s : List Char)
  | other (msg : List Char)
deriving DecidableEq, Repr

/-- The literal `"new-ipfs"`. -/
def NEW_IPFS_STR : List Char := ['n', 'e', 'w', '-', 'i', 'p', 'f', 's']

/-- The literal `"new-ipns"`. -/
def NEW_IPNS_STR : List Char := ['n', 'e', 'w', '-', 'i', 'p', 'n', 's']

/-- The literal `"/ipfs/"`. -/
def IPFS_PREFIX_STR : List Char := ['/', 'i', 'p', 'f', 's', '/']

/-- The literal `"/ipns/"`. -/
def IPNS_PREFIX_STR : List Char := ['/', 'i', 'p', 'n', 's', '/']

/-- Embedding of Rust's `str::split(char)`: splits into the (possibly
empty) substrings between occurrences of `c`. -/
def splitOnChar (c : Char) : List Char → List (List Char)
  | [] => [[]]
  | x :: xs =>
    if x = c then [] :: splitOnChar c xs
    else
      match splitOnChar c xs with
      | [] => [[x]]
      | y :: ys => (x :: y) :: ys

/-- Embedding of Rust's `str::starts_with(&str)`. -/
def startsWithChars : List Char → List Char → Bool
  | [], _ => true
  | _ :: _, [] => false
  | p :: ps, c :: cs => if p = c then startsWithChars ps cs else false

/-- Embedding of `<NIPRemote as FromStr>::from_str` (`remote.rs` lines
64-96): the two placeholder literals, then the `/ipfs/` and `/ipns/`
schemes with `split('/').nth(2)` hash extraction (the third piece of the
split, when present) and the exact-length check against
`IPFS_HASH_LEN`. -/
def NIPRemote.from_str (s : List Char) : Except NIPRemoteParseError NIPRemote :=
  if s = NEW_IPFS_STR then .ok .newIPFS
  else if s = NEW_IPNS_STR then .ok .newIPNS
  else if startsWithChars IPFS_PREFIX_STR s then
    match splitOnChar '/' s with
    | _ :: _ :: hash :: _ =>
      if hash.length ≠ IPFS_HASH_LEN then
        .error (.invalidHashLength hash.length IPFS_HASH_LEN)
      else .ok (.existingIPFS hash)
    | _ => .error (.other "Invalid hash format".data)
  else if startsWithChars IPNS_PREFIX_STR s then
    match splitOnChar '/' s with
    | _ :: _ :: hash :: _ =>
      if hash.length ≠ IPFS_HASH_LEN then
        .error (.invalidHashLength hash.length IPFS_HASH_LEN)
      else .ok (.existingIPNS hash)
    | _ => .error (.invalidLinkFormat s)
  else .error (.invalidLinkFormat s)

/-- Embedding of `<NIPRemote as ToString>::to_string` (`remote.rs` lines
98-107). -/
def NIPRemote.to_string : NIPRemote → List Char
  | .existingIPFS hash => IPFS_PREFIX_STR ++ hash
  | .existingIPNS hash => IPNS_PREFIX_STR ++ hash
  | .newIPFS => NEW_IPFS_STR
  | .newIPNS => NEW_IPNS_STR

/-- Embedding of `NIPRemote::get_hash` (`remote.rs` lines 56-61): `None`
for the placeholders, `Some(self.to_string())` for existing remotes. -/
def NIPRemote.get_hash : NIPRemote → Option (List Char)
  | .newIPFS | .newIPNS => none
  | r => some r.to_string

-- ## Git object model (interface of `git2` as used by `nip_core`)

/-- Git object kinds as reported by `git2::ObjectType` for tree entries
(`entry.kind()`); `none` models kinds the library reports as absent. -/
inductive GitKind where
  | commit
  | tree
  | blob
  | tag
deriving DecidableEq, Repr

/-- One tree entry: its object id and the kind recorded in the tree
(`git2::TreeEntry::{id, kind}`). -/
structure TreeEntry where
  id : String
  kind : Option GitKind
deriving DecidableEq, Repr

/-- A git object as traversed by `nip_core`: commits expose their tree
and parent ids, trees their entries, tags their target; `unsupported`
stands for any other `git2::ObjectType` (the `other =>` arms of
`index.rs`). -/
inductive GitObject where
  | commit (tree : String) (parents : List String)
  | tree (entries : List TreeEntry)
  | blob
  | tag (target : String)
  | unsupported (name : String)
deriving DecidableEq, Repr

/-- The local repository at the interface `nip_core` uses: an object
database (hash to object; `find_object` / `odb().read_header` both
consult it) and resolved references (`find_reference(..).resolve()`
followed by `peel(Tag).unwrap_or(peel(Commit))`, modelled as a map from
ref name to the peeled object's id). -/
structure Repo where
  objects : List (String × GitObject)
  refs : List (String × String)
deriving DecidableEq, Repr

/-- Object lookup in the repository (`Repository::find_object` /
`Odb::read_header` success). -/
def Repo.findObj (repo : Repo) (h : String) : Option GitObject :=
  lookupKey h repo.objects

-- ## NIP objects (`src/object.rs`, `src/migrations/object_v1.rs`)

/-- Embedding of `NIPObjectMetadata` (`object.rs` lines 26-38); the
`BTreeSet<String>` fields are lists with set semantics via membership. -/
inductive NIPObjectMetadata where
  | commit (parent_git_hashes : List String) (tree_git_hash : String)
  | tag (target_git_hash : String)
  | tree (entry_git_hashes : List String)
  | blob
deriving DecidableEq, Repr

/-- Embedding of `NIPObject` (`object.rs` lines 17-22). -/
structure NIPObject where
  raw_data_ipfs_hash : String
  metadata : NIPObjectMetadata
deriving DecidableEq, Repr

/-- Embedding of `NIPObjectV1Metadata` (`object_v1.rs` lines 26-38). -/
inductive NIPObjectV1Metadata where
  | commit (parent_git_hashes : List String) (tree_git_hash : String)
  | tag (target_git_hash : String)
  | tree (entry_git_hashes : List String)
  | blob
deriving DecidableEq, Repr

/-- Embedding of `NIPObjectV1` (`object_v1.rs` lines 17-22). -/
structure NIPObjectV1 where
  raw_data_ipfs_hash : String
  metadata : NIPObjectV1Metadata
deriving DecidableEq, Repr

/-- Embedding of `NIPObjectV1Metadata::to_v2` (`object_v1.rs` lines
74-93): a constructor-for-constructor copy. -/
def NIPObjectV1Metadata.to_v2 : NIPObjectV1Metadata → NIPObjectMetadata
  | .commit parent_git_hashes tree_git_hash => .commit parent_git_hashes tree_git_hash
  | .tag target_git_hash => .tag target_git_hash
  | .tree entry_git_hashes => .tree entry_git_hashes
  | .blob => .blob

/-- Embedding of `NIPObjectV1::to_v2` (`object_v1.rs` lines 65-71).  The
source additionally assigns a `git_hash` field that the `NIPObject`
declared in `object.rs` does not have (the spec's §9 notes this field
toggled across versions and is non-load-bearing); the fields `NIPObject`
does declare are carried over as in the source. -/
def NIPObjectV1.to_v2 (v1 : NIPObjectV1) (_git_hash : String) : NIPObject :=
  { raw_data_ipfs_hash := v1.raw_data_ipfs_hash
    metadata := v1.metadata.to_v2 }

/-- The IPFS client at the interface `nip_core` uses, modelled as
deterministic oracles: `addRaw h` is the link returned by uploading the
raw odb bytes of git object `h` (`odb.read(id)` + `upload_odb_obj`);
`addObj` is `NIPObject::ipfs_add`; `catObj` is `NIPObject::ipfs_get`
(download + header check + decode, `none` on failure); `catObjV1` is the
v1 counterpart `ipfs_cat` + `NIPObjectV1::from_slice`. -/
structure IPFS where
  addRaw : String → String
  addObj : NIPObject → String
  catObj : String → Option NIPObject
  catObjV1 : String → Option NIPObjectV1

/-- Embedding of `NIPObject::from_git_blob` (`object.rs` lines 42-50). -/
def NIPObject.from_git_blob (ipfs : IPFS) (id : String) : NIPObject :=
  { raw_data_ipfs_hash := ipfs.addRaw id
    metadata := .blob }

/-- Embedding of `NIPObject::from_git_commit` (`object.rs` lines 53-74):
parent ids and the tree id are taken from the commit's structural
fields. -/
def NIPObject.from_git_commit (ipfs : IPFS) (id : String)
    (parent_ids : List String) (tree_id : String) : NIPObject :=
  { raw_data_ipfs_hash := ipfs.addRaw id
    metadata := .commit parent_ids tree_id }

/-- Embedding of `NIPObject::from_git_tag` (`object.rs` lines 77-87). -/
def NIPObject.from_git_tag (ipfs : IPFS) (id : String) (target_id : String) :
    NIPObject :=
  { raw_data_ipfs_hash := ipfs.addRaw id
    metadata := .tag target_id }

/-- Embedding of `NIPObject::from_git_tree` (`object.rs` lines 90-101):
`entry_git_hashes` collects the id of EVERY entry of the tree
(`tree.iter().map(|entry| format!("{}", entry.id())).collect()`); the
source applies no filter on `entry.kind()` here. -/
def NIPObject.from_git_tree (ipfs : IPFS) (id : String)
    (entries : List TreeEntry) : NIPObject :=
  { raw_data_ipfs_hash := ipfs.addRaw id
    metadata := .tree (entries.map TreeEntry.id) }

/-- Entry hashes of a Tree metadata variant (empty for other
variants). -/
def treeEntryHashes : NIPObjectMetadata → List String
  | .tree entry_git_hashes => entry_git_hashes
  | _ => []

-- ## The index (`src/index.rs`)

/-- Embedding of `NIPIndex` (`index.rs` lines 28-35). -/
structure NIPIndex where
  refs : List (String × String)
  objects : List (String × String)
  prev_idx_hash : Option String
deriving DecidableEq, Repr

/-- Errors surfaced by the index algorithms: `fetchFirst` is
`NIPIndexError::FetchFirst`; `unsupportedKind` is the
`NIPError::InternalError("Don't know how to traverse a ...")` arms;
`objectNotFound` / `objectNotIndexed` / `ipfsGetFailed` / `refNotFound`
are the respective `format_err!` / collaborator failures; `outOfFuel` is
the embedding's recursion budget (no source counterpart: the Rust walk
recurses unboundedly). -/
inductive NIPErr where
  | outOfFuel
  | objectNotFound (h : String)
  | objectNotIndexed (h : String)
  | ipfsGetFailed (link : String)
  | refNotFound (name : String)
  | unsupportedKind (name : String)
  | fetchFirst
deriving DecidableEq, Repr

/-- Error-propagating left fold, modelling a Rust `for` loop whose body
uses `?`. -/
def exceptFold {α σ ε : Type} (f : α → σ → Except ε σ) : List α → σ → Except ε σ
  | [], st => .ok st
  | x :: xs, st =>
    match f x st with
    | .error e => .error e
    | .ok st' => exceptFold f xs st'

/-- Embedding of `NIPIndex::enumerate_for_push` (`index.rs` lines
187-308).  The state pair is (`for_push_state`, `submodule_state`); both
`HashSet<Oid>`s are lists with set semantics.  A branch terminates when
the object is already a key of `self.objects` or already in
`for_push_state`; otherwise the hash is inserted and the walk recurses
by kind: commit → its tree then each parent; tree → each entry, except
that entries of kind commit are put into `submodule_state` and skipped;
blob → nothing; tag → its target; any other kind is an error.  `fuel`
bounds the recursion depth (the Rust code recurses on the call stack). -/
def enumerate_for_push (idx : NIPIndex) (repo : Repo) (ipfs : IPFS) :
    Nat → String → List String × List String →
    Except NIPErr (List String × List String)
  | 0, _, _ => .error .outOfFuel
  | fuel + 1, h, st =>
    if (lookupKey h idx.objects).isSome then .ok st
    else if h ∈ st.1 then .ok st
    else
      match repo.findObj h with
      | none => .error (.objectNotFound h)
      | some obj =>
        let st1 := (h :: st.1, st.2)
        match obj with
        | .commit tree_hash parents =>
          match enumerate_for_push idx repo ipfs fuel tree_hash st1 with
          | .error e => .error e
          | .ok st2 =>
            exceptFold (fun p acc => enumerate_for_push idx repo ipfs fuel p acc)
              parents st2
        | .tree entries =>
          exceptFold
            (fun e acc =>
              if e.kind = some GitKind.commit then .ok (acc.1, e.id :: acc.2)
              else enumerate_for_push idx repo ipfs fuel e.id acc)
            entries st1
        | .blob => .ok st1
        | .tag target => enumerate_for_push idx repo ipfs fuel target st1
        | .unsupported name => .error (.unsupportedKind name)

/-- Embedding of `NIPIndex::push_git_objects` (`index.rs` lines
312-422): for each oid, find the object, skip it when already indexed,
otherwise build the matching `NIPObject`, upload it, and record
`oid -> link` in the objects table; unknown kinds are an error. -/
def push_git_objects (repo : Repo) (ipfs : IPFS) :
    NIPIndex → List String → Except NIPErr NIPIndex
  | idx, [] => .ok idx
  | idx, oid :: rest =>
    match repo.findObj oid with
    | none => .error (.objectNotFound oid)
    | some obj =>
      if (lookupKey oid idx.objects).isSome then
        push_git_objects repo ipfs idx rest
      else
        match obj with
        | .commit tree_hash parents =>
          let link := ipfs.addObj (NIPObject.from_git_commit ipfs oid parents tree_hash)
          push_git_objects repo ipfs
            { idx with objects := insertKey oid link idx.objects } rest
        | .tree entries =>
          let link := ipfs.addObj (NIPObject.from_git_tree ipfs oid entries)
          push_git_objects repo ipfs
            { idx with objects := insertKey oid link idx.objects } rest
        | .blob =>
          let link := ipfs.addObj (NIPObject.from_git_blob ipfs oid)
          push_git_objects repo ipfs
            { idx with objects := insertKey oid link idx.objects } rest
        | .tag target =>
          let link := ipfs.addObj (NIPObject.from_git_tag ipfs oid target)
          push_git_objects repo ipfs
            { idx with objects := insertKey oid link idx.objects } rest
        | .unsupported name => .error (.unsupportedKind name)

/-- Embedding of `NIPIndex::enumerate_for_fetch` (`index.rs` lines
468-556): a branch terminates when the local odb already has the hash or
the hash is already in the state; a hash missing from `self.objects`
fails; the submodule marker stops the branch before the hash is added;
otherwise the hash is added, the `NIPObject` is downloaded, and the walk
recurses into the metadata's referenced hashes. -/
def enumerate_for_fetch (idx : NIPIndex) (repo : Repo) (ipfs : IPFS) :
    Nat → String → List String → Except NIPErr (List String)
  | 0, _, _ => .error .outOfFuel
  | fuel + 1, oid, st =>
    if (repo.findObj oid).isSome then .ok st
    else if oid ∈ st then .ok st
    else
      match lookupKey oid idx.objects with
      | none => .error (.objectNotIndexed oid)
      | some link =>
        if link = SUBMODULE_TIP_MARKER then .ok st
        else
          let st1 := oid :: st
          match ipfs.catObj link with
          | none => .error (.ipfsGetFailed link)
          | some nobj =>
            match nobj.metadata with
            | .commit parent_git_hashes tree_git_hash =>
              match enumerate_for_fetch idx repo ipfs fuel tree_git_hash st1 with
              | .error e => .error e
              | .ok st2 =>
                exceptFold (fun p acc => enumerate_for_fetch idx repo ipfs fuel p acc)
                  parent_git_hashes st2
            | .tag target_git_hash =>
              enumerate_for_fetch idx repo ipfs fuel target_git_hash st1
            | .tree entry_git_hashes =>
              exceptFold (fun e acc => enumerate_for_fetch idx repo ipfs fuel e acc)
                entry_git_hashes st1
            | .blob => .ok st1

/-- The non-forced staleness check of `push_ref_from_str` (`index.rs`
lines 129-149): when `force` is unset and `ref_dst` already exists in
the index, every object reachable from its current target per the fetch
walk must already be locally present; a non-empty missing set is
`FetchFirst`. -/
def push_ref_check (idx : NIPIndex) (ref_dst : String) (force : Bool)
    (repo : Repo) (ipfs : IPFS) (fuel : Nat) : Except NIPErr Unit :=
  if force then .ok ()
  else
    match lookupKey ref_dst idx.refs with
    | none => .ok ()
    | some dst_git_hash =>
      match enumerate_for_fetch idx repo ipfs fuel dst_git_hash [] with
      | .error e => .error e
      | .ok missing_objects =>
        if missing_objects = [] then .ok () else .error .fetchFirst

/-- Embedding of `NIPIndex::push_ref_from_str` (`index.rs` lines
95-183).  An empty `ref_src` deletes `ref_dst` from the ref table only
(absence of the ref is a logged warning, still `Ok`).  Otherwise the
source ref is resolved; then `push_ref_check` runs; then the push walk
runs, the objects are uploaded, every discovered submodule tip is
recorded under `SUBMODULE_TIP_MARKER`, and `refs[ref_dst]` is set to the
resolved hash. -/
def push_ref_from_str (idx : NIPIndex) (ref_src ref_dst : String) (force : Bool)
    (repo : Repo) (ipfs : IPFS) (fuel : Nat) : Except NIPErr NIPIndex :=
  if ref_src = "" then
    .ok { idx with refs := removeKey ref_dst idx.refs }
  else
    match lookupKey ref_src repo.refs with
    | none => .error (.refNotFound ref_src)
    | some obj_id =>
      match push_ref_check idx ref_dst force repo ipfs fuel with
      | .error e => .error e
      | .ok _ =>
        match enumerate_for_push idx repo ipfs fuel obj_id ([], []) with
        | .error e => .error e
        | .ok st =>
          match push_git_objects repo ipfs idx st.1 with
          | .error e => .error e
          | .ok idx2 =>
            let idx3 := { idx2 with
              objects := st.2.foldl
                (fun m s => insertKey s SUBMODULE_TIP_MARKER m) idx2.objects }
            .ok { idx3 with refs := insertKey ref_dst obj_id idx3.refs }

-- ## Migration engine (`src/migrations/mod.rs`)

/-- Embedding of `MigrationError` plus the non-`MigrationError` failure
modes of the migration code paths (`serde_cbor` decode failure and
network failure, which the Rust code surfaces as black-box `Error`s); the
`unreachableArm` constructor stands for the `unreachable!()` arm. -/
inductive MigrationError where
  | zeroVersion
  | tooNew (version : Nat)
  | ipfsGetFailed (hash : String)
  | decodeFailed
  | unreachableArm
deriving DecidableEq, Repr

/-- The version-1 entry loop of `migrate_index` (`mod.rs` lines 41-54):
entries whose value is `SUBMODULE_TIP_MARKER` are skipped untouched;
every other entry's `NIPObjectV1` is downloaded, converted with `to_v2`
(which receives the entry's git hash), re-uploaded, and the new link
stored. -/
def migrateV1IndexEntries (ipfs : IPFS) :
    List (String × String) → Except MigrationError (List (String × String))
  | [] => .ok []
  | (git_hash, ipfs_hash) :: rest =>
    if ipfs_hash = SUBMODULE_TIP_MARKER then
      match migrateV1IndexEntries ipfs rest with
      | .error e => .error e
      | .ok rest2 => .ok ((git_hash, ipfs_hash) :: rest2)
    else
      match ipfs.catObjV1 ipfs_hash with
      | none => .error (.ipfsGetFailed ipfs_hash)
      | some v1 =>
        let new_hash := ipfs.addObj (v1.to_v2 git_hash)
        match migrateV1IndexEntries ipfs rest with
        | .error e => .error e
        | .ok rest2 => .ok ((git_hash, new_hash) :: rest2)

/-- Embedding of `migrate_index` (`mod.rs` lines 34-63).  The CBOR
payload is modelled by its decoded `NIPIndex` value (the index layout is
identical between v1 and v2, `type NIPIndexV1V2 = NIPIndex`).  Version 0
is `ZeroVersion`; version 1 rewrites the objects table as above; the
current version decodes directly; greater versions are `TooNew`. -/
def migrate_index (ipfs : IPFS) (idx : NIPIndex) (version : Nat) :
    Except MigrationError NIPIndex :=
  if version = 0 then .error .zeroVersion
  else if version = 1 then
    match migrateV1IndexEntries ipfs idx.objects with
    | .error e => .error e
    | .ok objects2 => .ok { idx with objects := objects2 }
  else if version = NIP_PROTOCOL_VERSION then .ok idx
  else if version > NIP_PROTOCOL_VERSION then .error (.tooNew version)
  else .error .unreachableArm

/-- Embedding of `migrate_object` (`mod.rs` lines 67-79).  The headerless
`data` bytes are modelled by their two possible decodings: `dataV1` is
`serde_cbor::from_slice::<NIPObjectV1>(data)` and `dataV2` is
`serde_cbor::from_slice::<NIPObject>(data)` (`none` = decode failure). -/
def migrate_object (dataV1 : Option NIPObjectV1) (dataV2 : Option NIPObject)
    (git_hash : String) (version : Nat) : Except MigrationError NIPObject :=
  if version = 0 then .error .zeroVersion
  else if version = 1 then
    match dataV1 with
    | none => .error .decodeFailed
    | some v1 => .ok (v1.to_v2 git_hash)
  else if version = NIP_PROTOCOL_VERSION then
    match dataV2 with
    | none => .error .decodeFailed
    | some v2 => .ok v2
  else if version > NIP_PROTOCOL_VERSION then .error (.tooNew version)
  else .error .unreachableArm

-- ## Helper lemmas: maps

theorem lookupKey_some_mem {α : Type} {k : String} {o : α} :
    ∀ {m : List (String × α)}, lookupKey k m = some o → (k, o) ∈ m := by
  intro m
  induction m with
  | nil => intro hc; simp [lookupKey] at hc
  | cons p rest ih =>
    obtain ⟨a, b⟩ := p
    intro hl
    by_cases hak : a = k
    · subst hak
      simp only [lookupKey, if_true, eq_self_iff_true, ite_true, Option.some.injEq] at hl
      subst hl
      exact List.mem_cons_self _ _
    · simp only [lookupKey, if_neg hak] at hl
      exact List.mem_cons_of_mem _ (ih hl)

theorem lookup_foldl_marker_not_mem {s : String} :
    ∀ (l : List String) (base : List (String × String)), s ∉ l →
      lookupKey s (l.foldl (fun m x => insertKey x SUBMODULE_TIP_MARKER m) base) =
        lookupKey s base := by
  intro l
  induction l with
  | nil => intro base _; rfl
  | cons x xs ih =>
    intro base hs
    have hx : x ≠ s := fun hc => hs (hc ▸ List.mem_cons_self _ _)
    have hxs : s ∉ xs := fun hc => hs (List.mem_cons_of_mem _ hc)
    simp only [List.foldl_cons]
    rw [ih _ hxs, lookupKey_insertKey_ne _ _ hx]

theorem lookup_foldl_marker_mem {s : String} :
    ∀ (l : List String) (base : List (String × String)), s ∈ l →
      lookupKey s (l.foldl (fun m x => insertKey x SUBMODULE_TIP_MARKER m) base) =
        some SUBMODULE_TIP_MARKER := by
  intro l
  induction l with
  | nil => intro base hc; simp at hc
  | cons x xs ih =>
    intro base hs
    simp only [List.foldl_cons]
    by_cases hmem : s ∈ xs
    · exact ih _ hmem
    · have hx : s = x := by
        rcases List.mem_cons.mp hs with h | h
        · exact h
        · exact absurd h hmem
      subst hx
      rw [lookup_foldl_marker_not_mem _ _ hmem, lookupKey_insertKey_self]

-- ## Helper lemmas: the push walk

/-- A hash that occurs in the repository as a tree entry of kind commit,
i.e. git's encoding of a submodule tip. -/
def IsSubmoduleEntry (repo : Repo) (s : String) : Prop :=
  ∃ t entries e, repo.findObj t = some (GitObject.tree entries) ∧
    e ∈ entries ∧ e.kind = some GitKind.commit ∧ e.id = s

/-- The entries of a tree object (empty for the other kinds). -/
def treeEntriesOf : GitObject → List TreeEntry
  | .tree entries => entries
  | _ => []

/-- Git reality for superprojects: a submodule tip commit referenced by a
tree entry is not itself an object of the superproject's object
database. -/
def SubmoduleClosed (repo : Repo) : Prop :=
  ∀ p ∈ repo.objects, ∀ e ∈ treeEntriesOf p.2,
    e.kind = some GitKind.commit → repo.findObj e.id = none

instance (repo : Repo) : Decidable (SubmoduleClosed repo) := by
  unfold SubmoduleClosed
  infer_instance

/-- Relation between walk states before and after a successful fragment
of the push walk: both components only grow; new `for_push_state`
members are objects of the repository; new `submodule_state` members are
submodule entries. -/
def PushStep (repo : Repo) (st st' : List String × List String) : Prop :=
  (∀ x ∈ st.1, x ∈ st'.1) ∧ (∀ x ∈ st.2, x ∈ st'.2) ∧
  (∀ x ∈ st'.1, x ∈ st.1 ∨ (repo.findObj x).isSome = true) ∧
  (∀ s ∈ st'.2, s ∈ st.2 ∨ IsSubmoduleEntry repo s)

theorem PushStep.refl (repo : Repo) (st : List String × List String) :
    PushStep repo st st :=
  ⟨fun _ hx => hx, fun _ hx => hx, fun _ hx => Or.inl hx, fun _ hx => Or.inl hx⟩

theorem PushStep.trans {repo : Repo} {st st1 st' : List String × List String}
    (h1 : PushStep repo st st1) (h2 : PushStep repo st1 st') :
    PushStep repo st st' := by
  obtain ⟨a1, b1, c1, d1⟩ := h1
  obtain ⟨a2, b2, c2, d2⟩ := h2
  refine ⟨fun x hx => a2 x (a1 x hx), fun x hx => b2 x (b1 x hx), ?_, ?_⟩
  · intro x hx
    rcases c2 x hx with h | h
    · exact c1 x h
    · exact Or.inr h
  · intro s hs
    rcases d2 s hs with h | h
    · exact d1 s h
    · exact Or.inr h

theorem PushStep.consFound {repo : Repo} {h : String}
    (st : List String × List String) (hf : (repo.findObj h).isSome = true) :
    PushStep repo st (h :: st.1, st.2) := by
  refine ⟨fun x hx => List.mem_cons_of_mem _ hx, fun x hx => hx, ?_, fun s hs => Or.inl hs⟩
  intro x hx
  rcases List.mem_cons.mp hx with h' | h'
  · exact Or.inr (h' ▸ hf)
  · exact Or.inl h'

theorem PushStep.consSub {repo : Repo} {s : String}
    (st : List String × List String) (hs : IsSubmoduleEntry repo s) :
    PushStep repo st (st.1, s :: st.2) := by
  refine ⟨fun x hx => hx, fun x hx => List.mem_cons_of_mem _ hx, fun x hx => Or.inl hx, ?_⟩
  intro x hx
  rcases List.mem_cons.mp hx with h' | h'
  · exact Or.inr (h' ▸ hs)
  · exact Or.inl h'

theorem exceptFold_pushStep {α : Type} {repo : Repo}
    {f : α → List String × List String → Except NIPErr (List String × List String)} :
    ∀ {xs : List α} {st st' : List String × List String},
      (∀ a st0 st0', a ∈ xs → f a st0 = .ok st0' → PushStep repo st0 st0') →
      exceptFold f xs st = .ok st' → PushStep repo st st' := by
  intro xs
  induction xs with
  | nil =>
    intro st st' _ hok
    simp only [exceptFold, Except.ok.injEq] at hok
    exact hok ▸ PushStep.refl repo st
  | cons x xs ih =>
    intro st st' hf hok
    simp only [exceptFold] at hok
    rcases hx : f x st with e | st2
    · rw [hx] at hok; exact absurd hok (by simp)
    · rw [hx] at hok
      exact PushStep.trans (hf x st st2 (List.mem_cons_self _ _) hx)
        (ih (fun a s0 s0' ha => hf a s0 s0' (List.mem_cons_of_mem _ ha)) hok)

/-- Every successful fragment of `enumerate_for_push` relates its input
and output states by `PushStep`. -/
theorem enumPush_pushStep (idx : NIPIndex) (repo : Repo) (ipfs : IPFS) :
    ∀ (fuel : Nat) {h st st'},
      enumerate_for_push idx repo ipfs fuel h st = .ok st' →
      PushStep repo st st' := by
  intro fuel
  induction fuel with
  | zero => intro h st st' hok; simp [enumerate_for_push] at hok
  | succ n ih =>
    intro h st st' hok
    simp only [enumerate_for_push] at hok
    by_cases h1 : (lookupKey h idx.objects).isSome
    · rw [if_pos h1] at hok
      simp only [Except.ok.injEq] at hok
      exact hok ▸ PushStep.refl repo st
    rw [if_neg h1] at hok
    by_cases h2 : h ∈ st.1
    · rw [if_pos h2] at hok
      simp only [Except.ok.injEq] at hok
      exact hok ▸ PushStep.refl repo st
    rw [if_neg h2] at hok
    rcases hf : repo.findObj h with _ | obj
    · rw [hf] at hok; exact absurd hok (by simp)
    rw [hf] at hok
    have hfs : (repo.findObj h).isSome = true := by rw [hf]; rfl
    have hcons : PushStep repo st (h :: st.1, st.2) := PushStep.consFound st hfs
    cases obj with
    | commit tree_hash parents =>
      simp only at hok
      rcases ht : enumerate_for_push idx repo ipfs n tree_hash (h :: st.1, st.2) with e | st2
      · rw [ht] at hok; exact absurd hok (by simp)
      rw [ht] at hok
      exact PushStep.trans hcons
        (PushStep.trans (ih ht)
          (exceptFold_pushStep (fun a s0 s0' _ ha => ih ha) hok))
    | tree entries =>
      simp only at hok
      refine PushStep.trans hcons (exceptFold_pushStep ?_ hok)
      intro e s0 s0' he hfe
      by_cases hk : e.kind = some GitKind.commit
      · rw [if_pos hk] at hfe
        simp only [Except.ok.injEq] at hfe
        refine hfe ▸ PushStep.consSub s0 ?_
        exact ⟨h, entries, e, hf, he, hk, rfl⟩
      · rw [if_neg hk] at hfe
        exact ih hfe
    | blob =>
      simp only [Except.ok.injEq] at hok
      exact hok ▸ hcons
    | tag target =>
      simp only at hok
      exact PushStep.trans hcons (ih hok)
    | unsupported name => simp at hok

/-- A successful push walk leaves the root either already indexed or in
the output `for_push_state`. -/
theorem enumPush_root_mem {idx : NIPIndex} {repo : Repo} {ipfs : IPFS}
    {fuel : Nat} {h : String} {st st' : List String × List String}
    (hok : enumerate_for_push idx repo ipfs fuel h st = .ok st') :
    (lookupKey h idx.objects).isSome = true ∨ h ∈ st.1 ∨ h ∈ st'.1 := by
  cases fuel with
  | zero => simp [enumerate_for_push] at hok
  | succ n =>
    simp only [enumerate_for_push] at hok
    by_cases h1 : (lookupKey h idx.objects).isSome
    · exact Or.inl h1
    rw [if_neg h1] at hok
    by_cases h2 : h ∈ st.1
    · exact Or.inr (Or.inl h2)
    rw [if_neg h2] at hok
    rcases hf : repo.findObj h with _ | obj
    · rw [hf] at hok; exact absurd hok (by simp)
    rw [hf] at hok
    have hmem : h ∈ (h :: st.1, st.2).1 := List.mem_cons_self _ _
    cases obj with
    | commit tree_hash parents =>
      simp only at hok
      rcases ht : enumerate_for_push idx repo ipfs n tree_hash (h :: st.1, st.2) with e | st2
      · rw [ht] at hok; exact absurd hok (by simp)
      rw [ht] at hok
      have p1 := (enumPush_pushStep idx repo ipfs n ht).1
      have p2 := (exceptFold_pushStep
        (fun a s0 s0' _ ha => enumPush_pushStep idx repo ipfs n ha) hok).1
      exact Or.inr (Or.inr (p2 h (p1 h hmem)))
    | tree entries =>
      simp only at hok
      have hff : ∀ (a : TreeEntry) s0 s0', a ∈ entries →
          (if a.kind = some GitKind.commit then Except.ok (s0.1, a.id :: s0.2)
           else enumerate_for_push idx repo ipfs n a.id s0) = .ok s0' →
          PushStep repo s0 s0' := by
        intro e s0 s0' he hfe
        by_cases hk : e.kind = some GitKind.commit
        · rw [if_pos hk] at hfe
          simp only [Except.ok.injEq] at hfe
          refine hfe ▸ PushStep.consSub s0 ?_
          exact ⟨h, entries, e, hf, he, hk, rfl⟩
        · rw [if_neg hk] at hfe
          exact enumPush_pushStep idx repo ipfs n hfe
      have p2 := (exceptFold_pushStep hff hok).1
      exact Or.inr (Or.inr (p2 h hmem))
    | blob =>
      simp only [Except.ok.injEq] at hok
      exact Or.inr (Or.inr (hok ▸ hmem))
    | tag target =>
      simp only at hok
      exact Or.inr (Or.inr ((enumPush_pushStep idx repo ipfs n hok).1 h hmem))
    | unsupported name => simp at hok

/-- All commit-kind entries of any tree stored at `t` are members of
`ss`. -/
def TreeCovered (repo : Repo) (ss : List String) (t : String) : Prop :=
  ∀ entries, repo.findObj t = some (GitObject.tree entries) →
    ∀ e ∈ entries, e.kind = some GitKind.commit → e.id ∈ ss

theorem TreeCovered.mono {repo : Repo} {ss ss' : List String} {t : String}
    (hss : ∀ x ∈ ss, x ∈ ss') (h : TreeCovered repo ss t) :
    TreeCovered repo ss' t :=
  fun entries hf e he hk => hss _ (h entries hf e he hk)

theorem TreeCovered.of_nontree {repo : Repo} {t : String} {obj : GitObject}
    (hf : repo.findObj t = some obj) (hnt : ∀ es, obj ≠ GitObject.tree es)
    (ss : List String) : TreeCovered repo ss t := by
  intro entries hfind
  rw [hf] at hfind
  exact absurd (Option.some.inj hfind) (hnt entries)

theorem exceptFold_ss_mono {α : Type}
    {f : α → List String × List String → Except NIPErr (List String × List String)} :
    ∀ {xs : List α} {st st'},
      (∀ a st0 st0', a ∈ xs → f a st0 = .ok st0' → ∀ x ∈ st0.2, x ∈ st0'.2) →
      exceptFold f xs st = .ok st' → ∀ x ∈ st.2, x ∈ st'.2 := by
  intro xs
  induction xs with
  | nil =>
    intro st st' _ hok
    simp only [exceptFold, Except.ok.injEq] at hok
    exact hok ▸ fun _ hx => hx
  | cons x xs ih =>
    intro st st' hmono hok
    simp only [exceptFold] at hok
    rcases hx : f x st with e | st2
    · rw [hx] at hok; exact absurd hok (by simp)
    · rw [hx] at hok
      intro y hy
      exact ih (fun a s0 s0' ha => hmono a s0 s0' (List.mem_cons_of_mem _ ha)) hok y
        (hmono x st st2 (List.mem_cons_self _ _) hx y hy)

theorem exceptFold_entries_insert
    {f : TreeEntry → List String × List String → Except NIPErr (List String × List String)}
    (hmono : ∀ a st0 st0', f a st0 = .ok st0' → ∀ x ∈ st0.2, x ∈ st0'.2)
    (hstep : ∀ e st0, e.kind = some GitKind.commit → f e st0 = .ok (st0.1, e.id :: st0.2)) :
    ∀ {es : List TreeEntry} {st st'}, exceptFold f es st = .ok st' →
      ∀ e ∈ es, e.kind = some GitKind.commit → e.id ∈ st'.2 := by
  intro es
  induction es with
  | nil => intro st st' _ e he; simp at he
  | cons e0 es ih =>
    intro st st' hok e he hk
    simp only [exceptFold] at hok
    rcases hx : f e0 st with err | st2
    · rw [hx] at hok; exact absurd hok (by simp)
    rw [hx] at hok
    rcases List.mem_cons.mp he with h' | h'
    · subst h'
      have hse := hstep e st hk
      rw [hse] at hx
      have hst2 : st2 = (st.1, e.id :: st.2) := (Except.ok.inj hx).symm
      subst hst2
      exact exceptFold_ss_mono (fun a s0 s0' _ ha => hmono a s0 s0' ha) hok e.id
        (List.mem_cons_self _ _)
    · exact ih hok e h' hk

theorem exceptFold_coverage {α : Type} {repo : Repo}
    {f : α → List String × List String → Except NIPErr (List String × List String)} :
    ∀ {xs : List α} {st st'},
      (∀ a st0 st0', a ∈ xs → f a st0 = .ok st0' →
        ∀ t ∈ st0'.1, t ∈ st0.1 ∨ TreeCovered repo st0'.2 t) →
      (∀ a st0 st0', a ∈ xs → f a st0 = .ok st0' → ∀ x ∈ st0.2, x ∈ st0'.2) →
      exceptFold f xs st = .ok st' →
      ∀ t ∈ st'.1, t ∈ st.1 ∨ TreeCovered repo st'.2 t := by
  intro xs
  induction xs with
  | nil =>
    intro st st' _ _ hok
    simp only [exceptFold, Except.ok.injEq] at hok
    exact hok ▸ fun _ ht => Or.inl ht
  | cons x xs ih =>
    intro st st' hcov hss hok
    simp only [exceptFold] at hok
    rcases hx : f x st with e | st2
    · rw [hx] at hok; exact absurd hok (by simp)
    rw [hx] at hok
    intro t ht
    have hssrest : ∀ y ∈ st2.2, y ∈ st'.2 :=
      exceptFold_ss_mono
        (fun a s0 s0' ha => hss a s0 s0' (List.mem_cons_of_mem _ ha)) hok
    rcases ih (fun a s0 s0' ha => hcov a s0 s0' (List.mem_cons_of_mem _ ha))
        (fun a s0 s0' ha => hss a s0 s0' (List.mem_cons_of_mem _ ha)) hok t ht with h' | h'
    · rcases hcov x st st2 (List.mem_cons_self _ _) hx t h' with h'' | h''
      · exact Or.inl h''
      · exact Or.inr (h''.mono hssrest)
    · exact Or.inr h'

/-- After any successful fragment of the push walk, every hash newly in
`for_push_state` whose repository object is a tree has all of its
commit-kind entries in the output `submodule_state`. -/
theorem enumPush_coverage (idx : NIPIndex) (repo : Repo) (ipfs : IPFS) :
    ∀ (fuel : Nat) {h st st'},
      enumerate_for_push idx repo ipfs fuel h st = .ok st' →
      ∀ t ∈ st'.1, t ∈ st.1 ∨ TreeCovered repo st'.2 t := by
  intro fuel
  induction fuel with
  | zero => intro h st st' hok; simp [enumerate_for_push] at hok
  | succ n ih =>
    intro h st st' hok
    simp only [enumerate_for_push] at hok
    by_cases h1 : (lookupKey h idx.objects).isSome
    · rw [if_pos h1] at hok
      simp only [Except.ok.injEq] at hok
      exact hok ▸ fun _ ht => Or.inl ht
    rw [if_neg h1] at hok
    by_cases h2 : h ∈ st.1
    · rw [if_pos h2] at hok
      simp only [Except.ok.injEq] at hok
      exact hok ▸ fun _ ht => Or.inl ht
    rw [if_neg h2] at hok
    rcases hf : repo.findObj h with _ | obj
    · rw [hf] at hok; exact absurd hok (by simp)
    rw [hf] at hok
    cases obj with
    | commit tree_hash parents =>
      simp only at hok
      rcases htc : enumerate_for_push idx repo ipfs n tree_hash (h :: st.1, st.2) with e | st2
      · rw [htc] at hok; exact absurd hok (by simp)
      rw [htc] at hok
      intro t ht
      have hfoldss : ∀ y ∈ st2.2, y ∈ st'.2 :=
        exceptFold_ss_mono
          (fun a s0 s0' _ ha => (enumPush_pushStep idx repo ipfs n ha).2.1) hok
      rcases exceptFold_coverage
          (fun a s0 s0' _ ha => ih ha)
          (fun a s0 s0' _ ha => (enumPush_pushStep idx repo ipfs n ha).2.1)
          hok t ht with hA | hA
      · rcases ih htc t hA with hB | hB
        · rcases List.mem_cons.mp hB with hC | hC
          · subst hC
            exact Or.inr (TreeCovered.of_nontree hf (by intro es hc; exact GitObject.noConfusion hc) _)
          · exact Or.inl hC
        · exact Or.inr (hB.mono hfoldss)
      · exact Or.inr hA
    | tree entries =>
      simp only at hok
      intro t ht
      have hstepmono : ∀ (a : TreeEntry) s0 s0',
          (if a.kind = some GitKind.commit then
            Except.ok (s0.1, a.id :: s0.2)
          else enumerate_for_push idx repo ipfs n a.id s0) = .ok s0' →
          ∀ x ∈ s0.2, x ∈ s0'.2 := by
        intro a s0 s0' ha
        by_cases hk : a.kind = some GitKind.commit
        · rw [if_pos hk] at ha
          have : s0' = (s0.1, a.id :: s0.2) := (Except.ok.inj ha).symm
          subst this
          exact fun x hx => List.mem_cons_of_mem _ hx
        · rw [if_neg hk] at ha
          exact (enumPush_pushStep idx repo ipfs n ha).2.1
      rcases exceptFold_coverage
          (fun a s0 s0' _ ha => by
            by_cases hk : a.kind = some GitKind.commit
            · rw [if_pos hk] at ha
              have : s0' = (s0.1, a.id :: s0.2) := (Except.ok.inj ha).symm
              subst this
              exact fun t' ht' => Or.inl ht'
            · rw [if_neg hk] at ha
              exact ih ha)
          (fun a s0 s0' _ ha => hstepmono a s0 s0' ha)
          hok t ht with hA | hA
      · rcases List.mem_cons.mp hA with hC | hC
        · subst hC
          refine Or.inr ?_
          intro entries' hfind e he hk
          rw [hf] at hfind
          have hee : entries' = entries := by
            have := Option.some.inj hfind
            exact (GitObject.tree.inj this).symm
          subst hee
          exact exceptFold_entries_insert
            (fun a s0 s0' ha => hstepmono a s0 s0' ha)
            (fun e' s0 hk' => by rw [if_pos hk'])
            hok e he hk
        · exact Or.inl hC
      · exact Or.inr hA
    | blob =>
      simp only [Except.ok.injEq] at hok
      subst hok
      intro t ht
      rcases List.mem_cons.mp ht with hC | hC
      · subst hC
        exact Or.inr (TreeCovered.of_nontree hf (by intro es hc; exact GitObject.noConfusion hc) _)
      · exact Or.inl hC
    | tag target =>
      simp only at hok
      intro t ht
      rcases ih hok t ht with hA | hA
      · rcases List.mem_cons.mp hA with hC | hC
        · subst hC
          exact Or.inr (TreeCovered.of_nontree hf (by intro es hc; exact GitObject.noConfusion hc) _)
        · exact Or.inl hC
      · exact Or.inr hA
    | unsupported name => simp at hok

-- ## Helper lemmas: remote addresses

theorem splitOnChar_no_sep {c : Char} :
    ∀ {h : List Char}, c ∉ h → splitOnChar c h = [h] := by
  intro h
  induction h with
  | nil => intro _; rfl
  | cons x xs ih =>
    intro hn
    have hx : ¬x = c := fun hc => hn (hc ▸ List.mem_cons_self _ _)
    have hxs : c ∉ xs := fun hc => hn (List.mem_cons_of_mem _ hc)
    simp only [splitOnChar, if_neg hx, ih hxs]

theorem splitOnChar_ipfs {h : List Char} (hs : '/' ∉ h) :
    splitOnChar '/' (IPFS_PREFIX_STR ++ h) = [[], ['i', 'p', 'f', 's'], h] := by
  simp [IPFS_PREFIX_STR, splitOnChar, splitOnChar_no_sep hs]

theorem splitOnChar_ipns {h : List Char} (hs : '/' ∉ h) :
    splitOnChar '/' (IPNS_PREFIX_STR ++ h) = [[], ['i', 'p', 'n', 's'], h] := by
  simp [IPNS_PREFIX_STR, splitOnChar, splitOnChar_no_sep hs]

theorem startsWithChars_append (p r : List Char) :
    startsWithChars p (p ++ r) = true := by
  induction p with
  | nil => rfl
  | cons x xs ih => simp [startsWithChars, ih]

theorem ipfs_append_ne_new_ipfs (h : List Char) : IPFS_PREFIX_STR ++ h ≠ NEW_IPFS_STR := by
  intro hc
  simp only [IPFS_PREFIX_STR, NEW_IPFS_STR, List.cons_append, List.cons.injEq] at hc
  exact absurd hc.1 (by decide)

theorem ipfs_append_ne_new_ipns (h : List Char) : IPFS_PREFIX_STR ++ h ≠ NEW_IPNS_STR := by
  intro hc
  simp only [IPFS_PREFIX_STR, NEW_IPNS_STR, List.cons_append, List.cons.injEq] at hc
  exact absurd hc.1 (by decide)

theorem ipns_append_ne_new_ipfs (h : List Char) : IPNS_PREFIX_STR ++ h ≠ NEW_IPFS_STR := by
  intro hc
  simp only [IPNS_PREFIX_STR, NEW_IPFS_STR, List.cons_append, List.cons.injEq] at hc
  exact absurd hc.1 (by decide)

theorem ipns_append_ne_new_ipns (h : List Char) : IPNS_PREFIX_STR ++ h ≠ NEW_IPNS_STR := by
  intro hc
  simp only [IPNS_PREFIX_STR, NEW_IPNS_STR, List.cons_append, List.cons.injEq] at hc
  exact absurd hc.1 (by decide)

theorem ipns_append_not_starts_ipfs (h : List Char) :
    startsWithChars IPFS_PREFIX_STR (IPNS_PREFIX_STR ++ h) = false := by
  simp [IPFS_PREFIX_STR, IPNS_PREFIX_STR, startsWithChars]

/-- Marker entries of a v1 objects table survive `migrateV1IndexEntries`
untouched. -/
theorem migrateV1_marker_mem (ipfs : IPFS) :
    ∀ {l l' : List (String × String)}, migrateV1IndexEntries ipfs l = .ok l' →
      ∀ {gh : String}, (gh, SUBMODULE_TIP_MARKER) ∈ l →
        (gh, SUBMODULE_TIP_MARKER) ∈ l' := by
  intro l
  induction l with
  | nil => intro l' _ gh hm; simp at hm
  | cons p rest ih =>
    obtain ⟨g0, i0⟩ := p
    intro l' hok gh hm
    simp only [migrateV1IndexEntries] at hok
    by_cases hi : i0 = SUBMODULE_TIP_MARKER
    · rw [if_pos hi] at hok
      rcases hr : migrateV1IndexEntries ipfs rest with e | rest2
      · rw [hr] at hok; exact absurd hok (by simp)
      rw [hr] at hok
      have hl' : l' = (g0, i0) :: rest2 := (Except.ok.inj hok).symm
      subst hl'
      rcases List.mem_cons.mp hm with hc | hc
      · exact List.mem_cons.mpr (Or.inl hc)
      · exact List.mem_cons_of_mem _ (ih hr hc)
    · rw [if_neg hi] at hok
      rcases hcat : ipfs.catObjV1 i0 with _ | v1
      · rw [hcat] at hok; exact absurd hok (by simp)
      rw [hcat] at hok
      rcases hr : migrateV1IndexEntries ipfs rest with e | rest2
      · rw [hr] at hok; exact absurd hok (by simp)
      rw [hr] at hok
      have hl' : l' = (g0, ipfs.addObj (v1.to_v2 g0)) :: rest2 := (Except.ok.inj hok).symm
      subst hl'
      rcases List.mem_cons.mp hm with hc | hc
      · exact absurd (Prod.mk.inj hc).2.symm hi
      · exact List.mem_cons_of_mem _ (ih hr hc)

-- ## Claims

/-- C1 counterexample: `from_git_tree` applied to a tree whose single
entry has kind commit (a submodule tip) produces a Tree metadata variant
whose entry-hash set DOES contain that entry, contradicting the claim
that such entries are excluded at construction time. -/
theorem c1_counterexample :
    "s1" ∈ treeEntryHashes (NIPObject.from_git_tree
      { addRaw := fun _ => "r", addObj := fun _ => "o",
        catObj := fun _ => none, catObjV1 := fun _ => none }
      "t1" [{ id := "s1", kind := some GitKind.commit }]).metadata := by
  simp [NIPObject.from_git_tree, treeEntryHashes]

/-- C1 (amended): `from_git_tree` performs no filtering at construction
time: the hash of EVERY tree entry, including entries of kind commit
(submodule tips), is present in the constructed Tree metadata's
entry-hash set; submodule entries are excluded only later, by the push
walk (`enumerate_for_push`). -/
theorem c1_tree_construction_includes_all_entries (ipfs : IPFS) (id : String)
    (entries : List TreeEntry) (e : TreeEntry) (he : e ∈ entries) :
    e.id ∈ treeEntryHashes (NIPObject.from_git_tree ipfs id entries).metadata := by
  simp only [NIPObject.from_git_tree, treeEntryHashes]
  exact List.mem_map_of_mem _ he

/-- C1 witness: the amended theorem applied to a concrete two-entry tree
(one submodule entry, one blob entry). -/
theorem c1_witness :
    TreeEntry.id { id := "b1", kind := some GitKind.blob } ∈
      treeEntryHashes (NIPObject.from_git_tree
        { addRaw := fun _ => "r", addObj := fun _ => "o",
          catObj := fun _ => none, catObjV1 := fun _ => none }
        "t2" [{ id := "s1", kind := some GitKind.commit },
              { id := "b1", kind := some GitKind.blob }]).metadata :=
  c1_tree_construction_includes_all_entries _ _ _ _
    (List.mem_cons_of_mem _ (List.mem_cons_self _ _))

/-- C7: `gen_nip_header` with an explicit u16 version produces exactly 8
bytes, the fixed magic followed by the version in big-endian; with no
version it uses the current protocol version; and `parse_nip_header`
decodes the result back to the version. -/
theorem c7_header_codec_roundtrip (v : Nat) (hv : v < 65536) :
    gen_nip_header (some v) = NIP_MAGIC ++ [v / 256, v % 256] ∧
    (gen_nip_header (some v)).length = NIP_HEADER_LEN ∧
    gen_nip_header none = gen_nip_header (some NIP_PROTOCOL_VERSION) ∧
    parse_nip_header (gen_nip_header (some v)) = .ok v := by
  have hd : v / 256 < 256 := by omega
  refine ⟨?_, ?_, rfl, ?_⟩
  · simp [gen_nip_header, Nat.mod_eq_of_lt hd]
  · simp [gen_nip_header, NIP_MAGIC, NIP_HEADER_LEN]
  · show parse_nip_header (NIP_MAGIC ++ [v / 256 % 256, v % 256]) = .ok v
    unfold parse_nip_header
    rw [List.take_left, List.drop_left]
    have hlen : (NIP_MAGIC ++ [v / 256 % 256, v % 256]).length = 8 := by
      simp [NIP_MAGIC]
    rw [hlen]
    simp only [NIP_HEADER_LEN]
    norm_num
    omega

/-- C7 witness: the codec round-trips the past protocol version 1. -/
theorem c7_witness :
    gen_nip_header (some 1) = NIP_MAGIC ++ [1 / 256, 1 % 256] ∧
    (gen_nip_header (some 1)).length = NIP_HEADER_LEN ∧
    gen_nip_header none = gen_nip_header (some NIP_PROTOCOL_VERSION) ∧
    parse_nip_header (gen_nip_header (some 1)) = .ok 1 :=
  c7_header_codec_roundtrip 1 (by omega)

/-- C10: `get_hash` is `none` for both placeholder variants and, for
both existing variants, `some` of the full rendered link (equal to
`to_string`, i.e. the scheme prefix followed by the hash), not the bare
hash. -/
theorem c10_get_hash_full_link (h : List Char) :
    NIPRemote.get_hash (.existingIPFS h) = some (NIPRemote.to_string (.existingIPFS h)) ∧
    NIPRemote.to_string (.existingIPFS h) = IPFS_PREFIX_STR ++ h ∧
    NIPRemote.get_hash (.existingIPNS h) = some (NIPRemote.to_string (.existingIPNS h)) ∧
    NIPRemote.to_string (.existingIPNS h) = IPNS_PREFIX_STR ++ h ∧
    NIPRemote.get_hash .newIPFS = none ∧
    NIPRemote.get_hash .newIPNS = none :=
  ⟨rfl, rfl, rfl, rfl, rfl, rfl⟩

/-- C6: `parse(render(x)) == x` for all four remote-address variants
(for existing addresses, for hashes of the fixed length not containing
the separator, which is what the address alphabet guarantees), and
parsing an existing-address string whose hash part is not exactly
`IPFS_HASH_LEN` characters fails with `InvalidHashLength` carrying the
actual and expected lengths. -/
theorem c6_remote_roundtrip (h : List Char) (hns : '/' ∉ h) :
    NIPRemote.from_str (NIPRemote.to_string .newIPFS) = .ok .newIPFS ∧
    NIPRemote.from_str (NIPRemote.to_string .newIPNS) = .ok .newIPNS ∧
    (h.length = IPFS_HASH_LEN →
      NIPRemote.from_str (NIPRemote.to_string (.existingIPFS h)) = .ok (.existingIPFS h)) ∧
    (h.length = IPFS_HASH_LEN →
      NIPRemote.from_str (NIPRemote.to_string (.existingIPNS h)) = .ok (.existingIPNS h)) ∧
    (h.length ≠ IPFS_HASH_LEN →
      NIPRemote.from_str (IPFS_PREFIX_STR ++ h) =
        .error (.invalidHashLength h.length IPFS_HASH_LEN)) ∧
    (h.length ≠ IPFS_HASH_LEN →
      NIPRemote.from_str (IPNS_PREFIX_STR ++ h) =
        .error (.invalidHashLength h.length IPFS_HASH_LEN)) := by
  have hbase_ipfs :
      NIPRemote.from_str (IPFS_PREFIX_STR ++ h) =
        if h.length ≠ IPFS_HASH_LEN then
          .error (.invalidHashLength h.length IPFS_HASH_LEN)
        else .ok (.existingIPFS h) := by
    unfold NIPRemote.from_str
    rw [if_neg (ipfs_append_ne_new_ipfs h), if_neg (ipfs_append_ne_new_ipns h),
      if_pos (by rw [startsWithChars_append]), splitOnChar_ipfs hns]
  have hbase_ipns :
      NIPRemote.from_str (IPNS_PREFIX_STR ++ h) =
        if h.length ≠ IPFS_HASH_LEN then
          .error (.invalidHashLength h.length IPFS_HASH_LEN)
        else .ok (.existingIPNS h) := by
    unfold NIPRemote.from_str
    rw [if_neg (ipns_append_ne_new_ipfs h), if_neg (ipns_append_ne_new_ipns h),
      if_neg (by rw [ipns_append_not_starts_ipfs h]; exact Bool.false_ne_true),
      if_pos (by rw [startsWithChars_append]), splitOnChar_ipns hns]
  refine ⟨rfl, rfl, ?_, ?_, ?_, ?_⟩
  · intro hlen
    show NIPRemote.from_str (IPFS_PREFIX_STR ++ h) = _
    rw [hbase_ipfs, if_neg (by omega)]
  · intro hlen
    show NIPRemote.from_str (IPNS_PREFIX_STR ++ h) = _
    rw [hbase_ipns, if_neg (by omega)]
  · intro hlen
    rw [hbase_ipfs, if_pos hlen]
  · intro hlen
    rw [hbase_ipns, if_pos hlen]

/-- C6 witness: round trip of a 46-character hash and the
`InvalidHashLength` failure on a 3-character hash, both obtained from
the theorem. -/
theorem c6_witness :
    NIPRemote.from_str (NIPRemote.to_string (.existingIPFS (List.replicate 46 'Q'))) =
      .ok (.existingIPFS (List.replicate 46 'Q')) ∧
    NIPRemote.from_str (IPFS_PREFIX_STR ++ ['a', 'b', 'c']) =
      .error (.invalidHashLength 3 IPFS_HASH_LEN) :=
  ⟨(c6_remote_roundtrip (List.replicate 46 'Q') (by decide)).2.2.1 (by decide),
   (c6_remote_roundtrip ['a', 'b', 'c'] (by decide)).2.2.2.2.1 (by decide)⟩

/-- C3: branch behavior of the fetch walk: a hash already in the local
object database or already in the visited set terminates the branch with
the fetch set unchanged; past those guards, a hash absent from the
index's objects table fails with the object-not-indexed error; and a
hash whose objects-table value is the submodule marker stops the branch
without being added to the fetch set. -/
theorem c3_fetch_walk_branches (idx : NIPIndex) (repo : Repo) (ipfs : IPFS)
    (fuel : Nat) (oid : String) (st : List String) :
    ((repo.findObj oid).isSome = true →
      enumerate_for_fetch idx repo ipfs (fuel + 1) oid st = .ok st) ∧
    (oid ∈ st → enumerate_for_fetch idx repo ipfs (fuel + 1) oid st = .ok st) ∧
    ((repo.findObj oid).isSome = false → oid ∉ st →
      lookupKey oid idx.objects = none →
      enumerate_for_fetch idx repo ipfs (fuel + 1) oid st = .error (.objectNotIndexed oid)) ∧
    ((repo.findObj oid).isSome = false → oid ∉ st →
      lookupKey oid idx.objects = some SUBMODULE_TIP_MARKER →
      enumerate_for_fetch idx repo ipfs (fuel + 1) oid st = .ok st) := by
  refine ⟨?_, ?_, ?_, ?_⟩
  · intro hloc
    simp [enumerate_for_fetch, hloc]
  · intro hmem
    simp only [enumerate_for_fetch]
    by_cases hloc : (repo.findObj oid).isSome
    · rw [if_pos hloc]
    · rw [if_neg hloc, if_pos hmem]
  · intro hloc hmem hidx
    simp only [enumerate_for_fetch]
    rw [if_neg (by simp [hloc]), if_neg hmem, hidx]
  · intro hloc hmem hidx
    simp only [enumerate_for_fetch]
    rw [if_neg (by simp [hloc]), if_neg hmem, hidx]
    simp

/-- C3 witness: the four branch behaviors at concrete inputs: a locally
present hash, a hash already in the visited set, an unindexed hash, and
a submodule-marker hash. -/
theorem c3_witness :
    (enumerate_for_fetch { refs := [], objects := [], prev_idx_hash := none }
      { objects := [("a", GitObject.blob)], refs := [] }
      { addRaw := fun _ => "r", addObj := fun _ => "o",
        catObj := fun _ => none, catObjV1 := fun _ => none } 1 "a" [] = .ok []) ∧
    (enumerate_for_fetch { refs := [], objects := [], prev_idx_hash := none }
      { objects := [], refs := [] }
      { addRaw := fun _ => "r", addObj := fun _ => "o",
        catObj := fun _ => none, catObjV1 := fun _ => none } 1 "b" ["b"] = .ok ["b"]) ∧
    (enumerate_for_fetch { refs := [], objects := [], prev_idx_hash := none }
      { objects := [], refs := [] }
      { addRaw := fun _ => "r", addObj := fun _ => "o",
        catObj := fun _ => none, catObjV1 := fun _ => none } 1 "c" [] =
      .error (.objectNotIndexed "c")) ∧
    (enumerate_for_fetch
      { refs := [], objects := [("d", "submodule-tip")], prev_idx_hash := none }
      { objects := [], refs := [] }
      { addRaw := fun _ => "r", addObj := fun _ => "o",
        catObj := fun _ => none, catObjV1 := fun _ => none } 1 "d" [] = .ok []) :=
  ⟨(c3_fetch_walk_branches _ _ _ 0 "a" []).1 (by rfl),
   (c3_fetch_walk_branches _ _ _ 0 "b" ["b"]).2.1 (by decide),
   (c3_fetch_walk_branches _ _ _ 0 "c" []).2.2.1 (by rfl) (by decide) (by rfl),
   (c3_fetch_walk_branches _ _ _ 0 "d" []).2.2.2 (by rfl) (by decide) (by rfl)⟩

/-- C9: pushing with an empty source ref deletes the destination ref
from the ref table only and succeeds: the objects table and the previous
index link are returned unchanged; and when the destination ref is
absent from the ref table the call still succeeds with the whole index
unchanged. -/
theorem c9_delete_ref_frame (idx : NIPIndex) (ref_dst : String) (force : Bool)
    (repo : Repo) (ipfs : IPFS) (fuel : Nat) :
    push_ref_from_str idx "" ref_dst force repo ipfs fuel =
      .ok { refs := removeKey ref_dst idx.refs, objects := idx.objects,
            prev_idx_hash := idx.prev_idx_hash } ∧
    (lookupKey ref_dst idx.refs = none →
      push_ref_from_str idx "" ref_dst force repo ipfs fuel = .ok idx) := by
  constructor
  · simp [push_ref_from_str]
  · intro habs
    simp [push_ref_from_str, removeKey_of_lookup_none habs]

/-- C9 witness: deleting a present ref removes only that ref; deleting
an absent ref returns the index unchanged. -/
theorem c9_witness :
    push_ref_from_str
      { refs := [("refs/heads/master", "c1")], objects := [("c1", "/ipfs/Qm1")],
        prev_idx_hash := some "/ipfs/QmPrev" }
      "" "refs/heads/master" false { objects := [], refs := [] }
      { addRaw := fun _ => "r", addObj := fun _ => "o",
        catObj := fun _ => none, catObjV1 := fun _ => none } 1 =
      .ok { refs := [], objects := [("c1", "/ipfs/Qm1")],
            prev_idx_hash := some "/ipfs/QmPrev" } ∧
    push_ref_from_str
      { refs := [("refs/heads/master", "c1")], objects := [("c1", "/ipfs/Qm1")],
        prev_idx_hash := some "/ipfs/QmPrev" }
      "" "refs/heads/other" false { objects := [], refs := [] }
      { addRaw := fun _ => "r", addObj := fun _ => "o",
        catObj := fun _ => none, catObjV1 := fun _ => none } 1 =
      .ok { refs := [("refs/heads/master", "c1")], objects := [("c1", "/ipfs/Qm1")],
            prev_idx_hash := some "/ipfs/QmPrev" } :=
  ⟨(c9_delete_ref_frame _ "refs/heads/master" false _ _ 1).1,
   (c9_delete_ref_frame _ "refs/heads/other" false _ _ 1).2 (by rfl)⟩

/-- C5: migration version dispatch: version 0 fails with the
invalid-version kind (`ZeroVersion`) for both `migrate_index` and
`migrate_object`; any version strictly greater than the current protocol
version fails with `TooNew` carrying that version; exactly the current
version returns the decoded value unchanged; and a version-1 index
migration leaves every objects-table entry holding the submodule marker
untouched. -/
theorem c5_migration_dispatch (ipfs : IPFS) (idx idx' : NIPIndex)
    (dataV1 : Option NIPObjectV1) (dataV2 : Option NIPObject)
    (git_hash gh : String) (v : Nat) (obj : NIPObject) :
    migrate_index ipfs idx 0 = .error .zeroVersion ∧
    migrate_object dataV1 dataV2 git_hash 0 = .error .zeroVersion ∧
    (v > NIP_PROTOCOL_VERSION → migrate_index ipfs idx v = .error (.tooNew v)) ∧
    (v > NIP_PROTOCOL_VERSION →
      migrate_object dataV1 dataV2 git_hash v = .error (.tooNew v)) ∧
    migrate_index ipfs idx NIP_PROTOCOL_VERSION = .ok idx ∧
    (dataV2 = some obj →
      migrate_object dataV1 dataV2 git_hash NIP_PROTOCOL_VERSION = .ok obj) ∧
    (migrate_index ipfs idx 1 = .ok idx' →
      (gh, SUBMODULE_TIP_MARKER) ∈ idx.objects →
      (gh, SUBMODULE_TIP_MARKER) ∈ idx'.objects) := by
  refine ⟨rfl, rfl, ?_, ?_, ?_, ?_, ?_⟩
  · intro hv
    have h0 : v ≠ 0 := by omega
    have h1 : v ≠ 1 := by simp [NIP_PROTOCOL_VERSION] at hv; omega
    have h2 : v ≠ NIP_PROTOCOL_VERSION := by omega
    simp [migrate_index, h0, h1, h2, hv]
  · intro hv
    have h0 : v ≠ 0 := by omega
    have h1 : v ≠ 1 := by simp [NIP_PROTOCOL_VERSION] at hv; omega
    have h2 : v ≠ NIP_PROTOCOL_VERSION := by omega
    simp [migrate_object, h0, h1, h2, hv]
  · simp [migrate_index, NIP_PROTOCOL_VERSION]
  · intro hd
    simp [migrate_object, NIP_PROTOCOL_VERSION, hd]
  · intro hok hm
    simp only [migrate_index, if_neg (by omega : (1 : Nat) ≠ 0), if_pos rfl] at hok
    rcases hr : migrateV1IndexEntries ipfs idx.objects with e | objects2
    · rw [hr] at hok; exact absurd hok (by simp)
    · rw [hr] at hok
      have hidx' : idx' = { idx with objects := objects2 } := (Except.ok.inj hok).symm
      subst hidx'
      exact migrateV1_marker_mem ipfs hr hm

/-- C5 witness: the dispatch behaviors at version numbers 0, 3, and the
current version 2, plus a concrete version-1 migration of an index
holding one marker entry and one real entry, where the marker entry
survives untouched. -/
theorem c5_witness :
    migrate_index
      { addRaw := fun _ => "r", addObj := fun _ => "/ipfs/QmNew",
        catObj := fun _ => none,
        catObjV1 := fun _ => some { raw_data_ipfs_hash := "/ipfs/QmRaw",
                                    metadata := NIPObjectV1Metadata.blob } }
      { refs := [], objects := [("g1", "submodule-tip"), ("g2", "/ipfs/QmOld")],
        prev_idx_hash := none } 0 = .error .zeroVersion ∧
    migrate_index
      { addRaw := fun _ => "r", addObj := fun _ => "/ipfs/QmNew",
        catObj := fun _ => none,
        catObjV1 := fun _ => some { raw_data_ipfs_hash := "/ipfs/QmRaw",
                                    metadata := NIPObjectV1Metadata.blob } }
      { refs := [], objects := [("g1", "submodule-tip"), ("g2", "/ipfs/QmOld")],
        prev_idx_hash := none } 3 = .error (.tooNew 3) ∧
    migrate_index
      { addRaw := fun _ => "r", addObj := fun _ => "/ipfs/QmNew",
        catObj := fun _ => none,
        catObjV1 := fun _ => some { raw_data_ipfs_hash := "/ipfs/QmRaw",
                                    metadata := NIPObjectV1Metadata.blob } }
      { refs := [], objects := [("g1", "submodule-tip"), ("g2", "/ipfs/QmOld")],
        prev_idx_hash := none } NIP_PROTOCOL_VERSION =
      .ok { refs := [], objects := [("g1", "submodule-tip"), ("g2", "/ipfs/QmOld")],
            prev_idx_hash := none } ∧
    ("g1", SUBMODULE_TIP_MARKER) ∈
      ({ refs := [], objects := [("g1", "submodule-tip"), ("g2", "/ipfs/QmNew")],
         prev_idx_hash := none } : NIPIndex).objects := by
  refine ⟨?_, ?_, ?_, ?_⟩
  · exact (c5_migration_dispatch _ _
      { refs := [], objects := [], prev_idx_hash := none } none none "" "" 3
      { raw_data_ipfs_hash := "", metadata := .blob }).1
  · exact (c5_migration_dispatch _ _
      { refs := [], objects := [], prev_idx_hash := none } none none "" "" 3
      { raw_data_ipfs_hash := "", metadata := .blob }).2.2.1 (by simp [NIP_PROTOCOL_VERSION])
  · exact (c5_migration_dispatch _ _
      { refs := [], objects := [], prev_idx_hash := none } none none "" "" 3
      { raw_data_ipfs_hash := "", metadata := .blob }).2.2.2.2.1
  · exact (c5_migration_dispatch
      { addRaw := fun _ => "r", addObj := fun _ => "/ipfs/QmNew",
        catObj := fun _ => none,
        catObjV1 := fun _ => some { raw_data_ipfs_hash := "/ipfs/QmRaw",
                                    metadata := NIPObjectV1Metadata.blob } }
      { refs := [], objects := [("g1", "submodule-tip"), ("g2", "/ipfs/QmOld")],
        prev_idx_hash := none }
      { refs := [], objects := [("g1", "submodule-tip"), ("g2", "/ipfs/QmNew")],
        prev_idx_hash := none } none none "" "g1" 3
      { raw_data_ipfs_hash := "", metadata := .blob }).2.2.2.2.2.2 (by rfl) (by decide)

/-- C8: the push walk is idempotent with respect to the objects table:
if a run of `enumerate_for_push` from `root` over `idx` discovered the
set `S`, then a second run from `root` against any index whose objects
table contains every key of `idx.objects` and every hash of `S` returns
an empty push set (and an empty submodule set), because its very first
branch terminates on the already-present check. -/
theorem c8_push_walk_idempotent (idx idx2 : NIPIndex) (repo : Repo) (ipfs : IPFS)
    (fuel : Nat) (root : String) (S subs : List String)
    (h1 : enumerate_for_push idx repo ipfs fuel root ([], []) = .ok (S, subs))
    (h2 : ∀ h, (lookupKey h idx.objects).isSome = true →
      (lookupKey h idx2.objects).isSome = true)
    (h3 : ∀ h ∈ S, (lookupKey h idx2.objects).isSome = true) :
    ∀ fuel2 : Nat,
      enumerate_for_push idx2 repo ipfs (fuel2 + 1) root ([], []) = .ok ([], []) := by
  intro fuel2
  have hroot : (lookupKey root idx2.objects).isSome = true := by
    rcases enumPush_root_mem h1 with h | h | h
    · exact h2 root h
    · simp at h
    · exact h3 root h
  simp [enumerate_for_push, hroot]

/-- C8 witness: a first walk over an empty index discovers a commit, its
tree and its blob; a second walk against the index containing those
three hashes returns the empty set. -/
theorem c8_witness :
    enumerate_for_push
      { refs := [], objects := [("c1", "/ipfs/Q1"), ("t1", "/ipfs/Q2"), ("b1", "/ipfs/Q3")],
        prev_idx_hash := none }
      { objects := [("c1", GitObject.commit "t1" []),
                    ("t1", GitObject.tree [{ id := "b1", kind := some GitKind.blob }]),
                    ("b1", GitObject.blob)],
        refs := [] }
      { addRaw := fun _ => "r", addObj := fun _ => "o",
        catObj := fun _ => none, catObjV1 := fun _ => none }
      8 "c1" ([], []) = .ok ([], []) := by
  refine c8_push_walk_idempotent
    { refs := [], objects := [], prev_idx_hash := none } _ _ _ 4 "c1"
    ["b1", "t1", "c1"] [] (by rfl) ?_ ?_ 7
  · intro h hx
    simp [lookupKey] at hx
  · intro h hx
    fin_cases hx <;> rfl

/-- C4: a non-forced push to a destination ref already present in the
index fails with `FetchFirst` whenever the fetch walk from the existing
destination target returns a non-empty missing set (the error is
returned before any mutation point of the source, so no table is
touched); with `force` set the check is skipped and the push succeeds
and overwrites the destination ref with the newly resolved hash,
regardless of reachability. -/
theorem c4_fetch_first_and_force (idx : NIPIndex) (ref_src ref_dst : String)
    (repo : Repo) (ipfs : IPFS) (fuel : Nat) (root dst_git_hash : String)
    (S objs subs : List String) (idx2 : NIPIndex)
    (hsrc : ref_src ≠ "")
    (hres : lookupKey ref_src repo.refs = some root) :
    (lookupKey ref_dst idx.refs = some dst_git_hash →
      enumerate_for_fetch idx repo ipfs fuel dst_git_hash [] = .ok S →
      S ≠ [] →
      push_ref_from_str idx ref_src ref_dst false repo ipfs fuel =
        .error .fetchFirst) ∧
    (enumerate_for_push idx repo ipfs fuel root ([], []) = .ok (objs, subs) →
      push_git_objects repo ipfs idx objs = .ok idx2 →
      ∃ out, push_ref_from_str idx ref_src ref_dst true repo ipfs fuel = .ok out ∧
        lookupKey ref_dst out.refs = some root) := by
  constructor
  · intro hdst hfetch hne
    have hchk : push_ref_check idx ref_dst false repo ipfs fuel = .error .fetchFirst := by
      simp only [push_ref_check, Bool.false_eq_true, if_false, hdst, hfetch]
      rw [if_neg hne]
    simp only [push_ref_from_str, if_neg hsrc, hres, hchk]
  · intro henum hpg
    have hchk : push_ref_check idx ref_dst true repo ipfs fuel = .ok () := by
      simp [push_ref_check]
    refine ⟨{ refs := insertKey ref_dst root idx2.refs,
              objects := subs.foldl (fun m s => insertKey s SUBMODULE_TIP_MARKER m)
                idx2.objects,
              prev_idx_hash := idx2.prev_idx_hash }, ?_, ?_⟩
    · simp only [push_ref_from_str, if_neg hsrc, hres, hchk, henum, hpg]
    · exact lookupKey_insertKey_self _ _ _

/-- C2: during the push walk every tree entry of kind commit (a
submodule tip) is inserted into the submodule set; under the git
invariant that submodule tips are not objects of the superproject's
database, no submodule-set member is ever in the main push object set;
and after a successful `push_ref_from_str` every discovered submodule
tip is recorded in the objects table under the reserved submodule
marker string. -/
theorem c2_submodule_tips (idx : NIPIndex) (repo : Repo) (ipfs : IPFS)
    (ref_src ref_dst : String) (force : Bool) (fuel : Nat)
    (root : String) (objs subs : List String) (outIdx : NIPIndex)
    (hclosed : SubmoduleClosed repo)
    (hsrc : ref_src ≠ "")
    (hres : lookupKey ref_src repo.refs = some root)
    (henum : enumerate_for_push idx repo ipfs fuel root ([], []) = .ok (objs, subs))
    (hpush : push_ref_from_str idx ref_src ref_dst force repo ipfs fuel = .ok outIdx) :
    (∀ t ∈ objs, TreeCovered repo subs t) ∧
    (∀ s ∈ subs, s ∉ objs) ∧
    (∀ s ∈ subs, lookupKey s outIdx.objects = some SUBMODULE_TIP_MARKER) := by
  have hstep := enumPush_pushStep idx repo ipfs fuel henum
  have hnone : ∀ s ∈ subs, repo.findObj s = none := by
    intro s hs
    rcases hstep.2.2.2 s hs with hc | hc
    · simp at hc
    · obtain ⟨t, entries, e, hfind, he, hk, heid⟩ := hc
      have hmem : (t, GitObject.tree entries) ∈ repo.objects :=
        lookupKey_some_mem hfind
      have := hclosed (t, GitObject.tree entries) hmem e
        (by simpa [treeEntriesOf] using he) hk
      exact heid ▸ this
  refine ⟨?_, ?_, ?_⟩
  · intro t ht
    rcases enumPush_coverage idx repo ipfs fuel henum t ht with hc | hc
    · simp at hc
    · exact hc
  · intro s hs hobj
    rcases hstep.2.2.1 s hobj with hc | hc
    · simp at hc
    · rw [hnone s hs] at hc
      simp at hc
  · intro s hs
    simp only [push_ref_from_str, if_neg hsrc, hres] at hpush
    rcases hchk : push_ref_check idx ref_dst force repo ipfs fuel with e | u
    · rw [hchk] at hpush; exact absurd hpush (by simp)
    rw [hchk] at hpush
    rw [henum] at hpush
    rcases hpg : push_git_objects repo ipfs idx objs with e | idx2
    · simp only [hpg] at hpush
      exact absurd hpush (by simp)
    · simp only [hpg] at hpush
      have hout : outIdx =
          { refs := insertKey ref_dst root idx2.refs,
            objects := subs.foldl (fun m s' => insertKey s' SUBMODULE_TIP_MARKER m)
              idx2.objects,
            prev_idx_hash := idx2.prev_idx_hash } := (Except.ok.inj hpush).symm
      subst hout
      exact lookup_foldl_marker_mem subs idx2.objects hs

/-- C2 witness: pushing a commit whose tree contains one submodule entry
records the tip in the submodule set, keeps it out of the object set,
and stores it in the resulting index under the submodule marker. -/
theorem c2_witness :
    (∀ t ∈ ["t1", "c1"],
      TreeCovered
        { objects := [("c1", GitObject.commit "t1" []),
                      ("t1", GitObject.tree [{ id := "s1", kind := some GitKind.commit }])],
          refs := [("refs/heads/master", "c1")] }
        ["s1"] t) ∧
    (∀ s ∈ ["s1"], s ∉ ["t1", "c1"]) ∧
    (∀ s ∈ ["s1"],
      lookupKey s
        ({ refs := [("refs/heads/master", "c1")],
           objects := [("s1", "submodule-tip"), ("c1", "/ipfs/QmObj"),
                       ("t1", "/ipfs/QmObj")],
           prev_idx_hash := none } : NIPIndex).objects =
        some SUBMODULE_TIP_MARKER) :=
  c2_submodule_tips
    { refs := [], objects := [], prev_idx_hash := none }
    { objects := [("c1", GitObject.commit "t1" []),
                  ("t1", GitObject.tree [{ id := "s1", kind := some GitKind.commit }])],
      refs := [("refs/heads/master", "c1")] }
    { addRaw := fun _ => "/ipfs/QmRaw", addObj := fun _ => "/ipfs/QmObj",
      catObj := fun _ => none, catObjV1 := fun _ => none }
    "refs/heads/master" "refs/heads/master" false 3 "c1" ["t1", "c1"] ["s1"]
    { refs := [("refs/heads/master", "c1")],
      objects := [("s1", "submodule-tip"), ("c1", "/ipfs/QmObj"),
                  ("t1", "/ipfs/QmObj")],
      prev_idx_hash := none }
    (by decide) (by decide) (by rfl) (by rfl) (by rfl)

/-- C4 witness: with the destination ref pointing at an object that is
indexed but locally missing, the non-forced push fails with `FetchFirst`
while the forced push succeeds and overwrites the ref. -/
theorem c4_witness :
    (push_ref_from_str
      { refs := [("refs/heads/master", "d")], objects := [("d", "/ipfs/Qd")],
        prev_idx_hash := none }
      "refs/heads/master" "refs/heads/master" false
      { objects := [("r", GitObject.blob)], refs := [("refs/heads/master", "r")] }
      { addRaw := fun _ => "/ipfs/Qraw", addObj := fun _ => "/ipfs/Qobj",
        catObj := fun l => if l = "/ipfs/Qd" then
            some { raw_data_ipfs_hash := "x", metadata := NIPObjectMetadata.blob }
          else none,
        catObjV1 := fun _ => none }
      1 = .error .fetchFirst) ∧
    (∃ out, push_ref_from_str
      { refs := [("refs/heads/master", "d")], objects := [("d", "/ipfs/Qd")],
        prev_idx_hash := none }
      "refs/heads/master" "refs/heads/master" true
      { objects := [("r", GitObject.blob)], refs := [("refs/heads/master", "r")] }
      { addRaw := fun _ => "/ipfs/Qraw", addObj := fun _ => "/ipfs/Qobj",
        catObj := fun l => if l = "/ipfs/Qd" then
            some { raw_data_ipfs_hash := "x", metadata := NIPObjectMetadata.blob }
          else none,
        catObjV1 := fun _ => none }
      1 = .ok out ∧
      lookupKey "refs/heads/master" out.refs = some "r") :=
  ⟨(c4_fetch_first_and_force
      { refs := [("refs/heads/master", "d")], objects := [("d", "/ipfs/Qd")],
        prev_idx_hash := none }
      "refs/heads/master" "refs/heads/master"
      { objects := [("r", GitObject.blob)], refs := [("refs/heads/master", "r")] }
      { addRaw := fun _ => "/ipfs/Qraw", addObj := fun _ => "/ipfs/Qobj",
        catObj := fun l => if l = "/ipfs/Qd" then
            some { raw_data_ipfs_hash := "x", metadata := NIPObjectMetadata.blob }
          else none,
        catObjV1 := fun _ => none }
      1 "r" "d" ["d"] ["r"] []
      { refs := [("refs/heads/master", "d")],
        objects := [("r", "/ipfs/Qobj"), ("d", "/ipfs/Qd")], prev_idx_hash := none }
      (by decide) (by rfl)).1 (by rfl) (by rfl) (by decide),
   (c4_fetch_first_and_force
      { refs := [("refs/heads/master", "d")], objects := [("d", "/ipfs/Qd")],
        prev_idx_hash := none }
      "refs/heads/master" "refs/heads/master"
      { objects := [("r", GitObject.blob)], refs := [("refs/heads/master", "r")] }
      { addRaw := fun _ => "/ipfs/Qraw", addObj := fun _ => "/ipfs/Qobj",
        catObj := fun l => if l = "/ipfs/Qd" then
            some { raw_data_ipfs_hash := "x", metadata := NIPObjectMetadata.blob }
          else none,
        catObjV1 := fun _ => none }
      1 "r" "d" ["d"] ["r"] []
      { refs := [("refs/heads/master", "d")],
        objects := [("r", "/ipfs/Qobj"), ("d", "/ipfs/Qd")], prev_idx_hash := none }
      (by decide) (by rfl)).2 (by rfl) (by rfl)⟩
